import Mathlib

/-!
Verification of the synaptic-weight builders of `invertpy/brain/synapses.py`.

The Python code is shallowly embedded as follows.

* Matrices produced by the deterministic builders are `List (List ℚ)`
  (row-major, as numpy arrays), so that shapes and entries compute.
  Machine floats are modelled by exact rationals (reals where the source
  uses transcendental functions).
* The stochastic sparse generator works on functional matrices
  `ℕ → ℕ → ℚ` with explicit state passing; its two unbounded `while`
  loops take a fuel parameter and return `Option`.
* The numpy random generator is an explicit oracle record: a stream of
  unit-interval draws, a stream of `randint` results, a stream of
  permutations and a final row permutation, exactly the four ways the
  source consumes `rng`.
* `bias` arguments are `Option BiasArg`: Python `None` becomes `none`,
  a Python bool or float becomes `some (.bool b)` / `some (.num q)`.
  A builder returning `w` alone is modelled by a `none` second component.
-/

namespace Invertpy

/-- Row-major list-of-lists matrix over an arbitrary entry type. -/
abbrev LL (α : Type) := List (List α)

/-- Number of rows of a list matrix. -/
def numRows {α : Type} (A : LL α) : ℕ := A.length

/-- Number of columns of a list matrix (length of the first row; this is
numpy's `shape[1]` for the rectangular arrays the builders produce). -/
def numCols {α : Type} (A : LL α) : ℕ := (A.headD []).length

/-- The matrix is rectangular with `r` rows and `c` columns. -/
def IsRect {α : Type} (A : LL α) (r c : ℕ) : Prop :=
  A.length = r ∧ ∀ row ∈ A, row.length = c

/-- Embedding of `np.full((nbIn, nbOut), fill_value)`. -/
def fullM {α : Type} (nbIn nbOut : ℕ) (fill : α) : LL α :=
  List.replicate nbIn (List.replicate nbOut fill)

/-- Embedding of `np.eye(m, n)` (ones on the main diagonal). -/
def eyeM (m n : ℕ) : LL ℚ :=
  (List.range m).map (fun i => (List.range n).map (fun j => if i = j then (1 : ℚ) else 0))

/-- Scalar multiple of a list matrix, `a * A` in numpy. -/
def scaleM (a : ℚ) (A : LL ℚ) : LL ℚ := A.map (List.map (fun x => a * x))

/-- Embedding of `np.tile(A, (k, 1))`: stack `k` vertical copies. -/
def tileV (k : ℕ) (A : LL ℚ) : LL ℚ := (List.replicate k A).flatten

/-- Embedding of `np.tile(A, (1, k))`: concatenate `k` horizontal copies of each row. -/
def tileH (k : ℕ) (A : LL ℚ) : LL ℚ := A.map (fun row => (List.replicate k row).flatten)

/-- Embedding of `np.kron(A, B)`: each entry `a` of `A` is replaced by the
block `a * B`. -/
def kron (A B : LL ℚ) : LL ℚ :=
  A.flatMap (fun ar => B.map (fun br => ar.flatMap (fun a => br.map (fun b => a * b))))

/-- The Python `bias` argument when it is not `None`: either a bool or a number. -/
inductive BiasArg : Type
  | bool (b : Bool)
  | num (q : ℚ)
deriving DecidableEq

/-- The numeric value `np.full(_, fill_value=bias)` stores: Python bools are
cast to 0/1, numbers kept. -/
def BiasArg.toQ : BiasArg → ℚ
  | .bool b => if b then 1 else 0
  | .num q => q

/-- Embedding of `uniform_synapses` (synapses.py:59): a constant-filled
`(nb_in, nb_out)` matrix; a non-`None` bias is constant-filled over `nb_out`. -/
def uniform_synapses (nbIn nbOut : ℕ) (fill : ℚ) (bias : Option BiasArg) :
    LL ℚ × Option (List ℚ) :=
  let w := fullM nbIn nbOut fill
  (w, bias.map (fun b => List.replicate nbOut b.toQ))

/-- Embedding of `random_synapses` (synapses.py:24).  The rng's `uniform`
draws are the stream `u` consumed in C (row-major) order; `bias=True`
(and only `True`: `isinstance(bias, bool) and bias`) draws `nb_out` more
values, every other non-`None` bias is constant-filled. -/
def random_synapses (nbIn nbOut : ℕ) (wMin wMax : ℚ) (bias : Option BiasArg)
    (u : ℕ → ℚ) : LL ℚ × Option (List ℚ) :=
  let w := (List.range nbIn).map (fun i =>
    (List.range nbOut).map (fun j => wMin + (wMax - wMin) * u (i * nbOut + j)))
  match bias with
  | none => (w, none)
  | some (.bool true) =>
      (w, some ((List.range nbOut).map (fun j => wMin + (wMax - wMin) * u (nbIn * nbOut + j))))
  | some b => (w, some (List.replicate nbOut b.toQ))

/-- Embedding of `diagonal_synapses` (synapses.py:95).  With `tile=True` and
`nb_in // nb_out > 1` the identity is tiled vertically; with
`nb_out // nb_in > 1` horizontally; otherwise (also for indivisible ratios
`≤ 1`) the plain rectangular `fill * eye(nb_in, nb_out)` is used. -/
def diagonal_synapses (nbIn nbOut : ℕ) (fill : ℚ) (tile : Bool) (bias : Option BiasArg) :
    LL ℚ × Option (List ℚ) :=
  let w :=
    if tile ∧ 1 < nbIn / nbOut then scaleM fill (tileV (nbIn / nbOut) (eyeM nbOut nbOut))
    else if tile ∧ 1 < nbOut / nbIn then scaleM fill (tileH (nbOut / nbIn) (eyeM nbIn nbIn))
    else scaleM fill (eyeM nbIn nbOut)
  (w, bias.map (fun b => List.replicate nbOut b.toQ))

/-- Embedding of `opposing_synapses` (synapses.py:223):
`np.kron(fill * [[0,1],[1,0]], np.eye(nb_in//2, nb_out//2))`.  The source
performs no parity check; odd dimensions are silently floored. -/
def opposing_synapses (nbIn nbOut : ℕ) (fill : ℚ) (bias : Option BiasArg) :
    LL ℚ × Option (List ℚ) :=
  let w := kron (scaleM fill [[0, 1], [1, 0]]) (eyeM (nbIn / 2) (nbOut / 2))
  (w, bias.map (fun b => List.replicate nbOut b.toQ))

/-- Embedding of `pattern_synapses` (synapses.py:422): the Kronecker product
of `pattern` and `patch`; a non-`None` bias is filled over the product's
actual column count `w.shape[1]`, not over a caller-declared `nb_out`. -/
def pattern_synapses (pattern patch : LL ℚ) (bias : Option BiasArg) :
    LL ℚ × Option (List ℚ) :=
  let w := kron pattern patch
  (w, bias.map (fun b => List.replicate (numCols w) b.toQ))

/-- The boolean checkerboard `(i % 2 == 0) == (j % 2 == 0)` cast to 0/1
(synapses.py:324). -/
def chessboard_pattern (nbRows nbCols : ℕ) : LL ℚ :=
  (List.range nbRows).map (fun i =>
    (List.range nbCols).map (fun j => if (i % 2 = 0) = (j % 2 = 0) then (1 : ℚ) else 0))

/-- Embedding of `chessboard_synapses` (synapses.py:298): the checkerboard
pattern is Kronecker-expanded by a patch whose shape is chosen from the
`nb_in` / `nb_out` ratio, and the result is delegated to `pattern_synapses`. -/
def chessboard_synapses (nbIn nbOut : ℕ) (fill : ℚ) (nbRows nbCols : ℕ)
    (bias : Option BiasArg) : LL ℚ × Option (List ℚ) :=
  let pattern := chessboard_pattern nbRows nbCols
  let patch :=
    if 1 < nbOut / nbIn then fullM 1 (nbOut / nbIn) fill
    else if 1 < nbIn / nbOut then fullM (nbIn / nbOut) 1 fill
    else fullM 1 1 fill
  pattern_synapses pattern patch bias

/-- Embedding of `roll_synapses` (synapses.py:450).  Python slices are
mirrored by `drop`/`take` on natural shift amounts.  The vertical branches
reuse the horizontal arguments exactly as the source does
(`w[int(left):]` under `up`, `w[-int(right):]` under `down`); when the
reused argument is `None` the source raises `TypeError` via `int(None)`,
modelled by `none`. -/
def roll_synapses (w : LL ℚ) (left right up down : Option ℕ) : Option (LL ℚ) :=
  let w1 :=
    match left, right with
    | some l, _ => w.map (fun row => row.drop l ++ row.take l)
    | none, some r => w.map (fun row => row.drop (row.length - r) ++ row.take (row.length - r))
    | none, none => w
  match up, down with
  | some _, _ =>
      match left with
      | some l => some (w1.drop l ++ w1.take l)
      | none => none
  | none, some _ =>
      match right with
      | some r => some (w1.drop (w1.length - r) ++ w1.take (w1.length - r))
      | none => none
  | none, none => some w1

/-! ### The sparse decorrelated connectivity generator

Embedding of `sparse_synapses` (synapses.py:147-220).  The weight matrix is
a total function `ℕ → ℕ → ℚ` whose support stays inside
`range nb_in × range nb_out`; the per-output connection counter
`c_out_in` is `ℕ → ℕ`; the current input index `i` is a natural kept
below `nb_in` by the source's `% nb_in`. -/

/-- Functional matrix used by the sparse generator. -/
abbrev Mat := ℕ → ℕ → ℚ

/-- Point update `w[i, j] = v`. -/
def upd (w : Mat) (i j : ℕ) (v : ℚ) : Mat :=
  fun i' j' => if i' = i ∧ j' = j then v else w i' j'

/-- C-style truncation toward zero of a rational, the conversion applied by
`np.asarray(..., dtype='int32')`. -/
def int32trunc (q : ℚ) : ℤ := if 0 ≤ q then ⌊q⌋ else -⌊-q⌋

/-- The random-generator oracle of `sparse_synapses`, one field per way the
source consumes `rng`: `unit` is the `rng.rand(nb_out)` batch of
unit-interval draws, `start s` the result of the `s`-th call to
`rng.randint(0, nb_in - 1)`, `perm t l` the result of the `t`-th call to
`rng.permutation` on the list `l`, and `rowPerm` the final
`rng.permutation(w)` row permutation. -/
structure SparseRng : Type where
  unit : ℕ → ℚ
  start : ℕ → ℕ
  perm : ℕ → List ℕ → List ℕ
  rowPerm : ℕ → ℕ

/-- Resolution of the `nb_in_min` default
`max(int(nb_in * 6. / 1000.), 1)` (synapses.py:180-181). -/
def resolvedMin (nbIn : ℕ) (o : Option ℕ) : ℕ := o.getD (max (nbIn * 6 / 1000) 1)

/-- Resolution of the `nb_in_max` default
`max(int(nb_in * 14. / 1000.), 1)` (synapses.py:182-183). -/
def resolvedMax (nbIn : ℕ) (o : Option ℕ) : ℕ := o.getD (max (nbIn * 14 / 1000) 1)

/-- Dot product of columns `j` and `k` of `w` over the `nb_in` rows; the
`(j, k)` entry of `np.dot(w.T, w)`. -/
def colDot (nbIn : ℕ) (w : Mat) (j k : ℕ) : ℚ :=
  ∑ i ∈ Finset.range nbIn, w i j * w i k

/-- Fan-in of output unit `j`: the number of non-zero entries of column `j`. -/
def colCount (nbIn : ℕ) (w : Mat) (j : ℕ) : ℕ :=
  ((Finset.range nbIn).filter (fun i => w i j ≠ 0)).card

/-- Column sum of column `j` of `w`. -/
def colSum (nbIn : ℕ) (w : Mat) (j : ℕ) : ℚ :=
  ∑ i ∈ Finset.range nbIn, w i j

/-- Decision of `(c - np.diag(np.diagonal(c)))[j, k] >= min_corr` for the
cosine-similarity matrix `c = wᵀw / outer(‖·‖, ‖·‖)` (synapses.py:211-212),
written in exact arithmetic.  The algorithm only ever stores non-negative
weights, so `c[j,k] ≥ 0`, and `m` has already been clipped to `[0, 1]`, so
for non-zero columns `c[j,k] ≥ m` is equivalent to the squared comparison
below.  When either column is all zero numpy produces `0/0 = NaN` there and
`NaN >= m` is `False`, the first branch.  On the diagonal the subtracted
matrix leaves `0`, so the comparison is `0 ≥ m`. -/
def offdiagGE (nbIn : ℕ) (w : Mat) (m : ℚ) (j k : ℕ) : Bool :=
  if colDot nbIn w j j = 0 ∨ colDot nbIn w k k = 0 then false
  else if j = k then decide (m ≤ 0)
  else decide (m ^ 2 * (colDot nbIn w j j * colDot nbIn w k k) ≤ (colDot nbIn w j k) ^ 2)

/-- The recomputed regeneration set
`np.arange(nb_out)[np.greater_equal(...).max(axis=0)]` (synapses.py:212):
the ascending list of output units `k` for which some `j` has an
off-diagonal similarity `≥ min_corr` against `k`. -/
def dupList (nbIn nbOut : ℕ) (w : Mat) (m : ℚ) : List ℕ :=
  (List.range nbOut).filter (fun k => (List.range nbOut).any (fun j => offdiagGE nbIn w m j k))

/-- State of the fill loop: the matrix, the counter array `c_out_in` and the
current input index `i`. -/
structure FillSt : Type where
  w : Mat
  c : ℕ → ℕ
  i : ℕ

/-- One step of the `for j in j_s` body (synapses.py:199-207): skip `j` if
its count reached its target or the current input is already connected,
otherwise connect with weight `1/target` (if normalising) or `1`, advance
`i` circularly and bump the count. -/
def stepJ (nbIn : ℕ) (normalise : Bool) (targets : ℕ → ℤ) (st : FillSt) (j : ℕ) : FillSt :=
  if targets j ≤ (st.c j : ℤ) ∨ 0 < st.w st.i j then st
  else
    { w := upd st.w st.i j (if normalise then 1 / ((targets j : ℚ)) else 1)
      c := Function.update st.c j (st.c j + 1)
      i := (st.i + 1) % nbIn }

/-- One full pass over the shuffled regeneration list. -/
def runPass (nbIn : ℕ) (normalise : Bool) (targets : ℕ → ℤ) (js : List ℕ) (st : FillSt) :
    FillSt :=
  js.foldl (stepJ nbIn normalise targets) st

/-- One pass over the shuffled regeneration list followed by the stall
check (synapses.py:197-209): if a full pass returns to the input index `ii`
it started from, the index is force-advanced by one. -/
def passAdjust (nbIn : ℕ) (normalise : Bool) (targets : ℕ → ℤ) (js : List ℕ)
    (st : FillSt) : FillSt :=
  if (runPass nbIn normalise targets js st).i = st.i then
    { runPass nbIn normalise targets js st with
        i := ((runPass nbIn normalise targets js st).i + 1) % nbIn }
  else runPass nbIn normalise targets js st

/-- The inner `while c_out_in.sum() < nb_out_in.sum()` loop
(synapses.py:196-209), with fuel.  `t` counts `rng.permutation` calls. -/
def innerWhile (nbIn nbOut : ℕ) (normalise : Bool) (targets : ℕ → ℤ) (rng : SparseRng) :
    ℕ → ℕ → List ℕ → FillSt → Option (FillSt × ℕ)
  | 0, _, _, _ => none
  | fuel + 1, t, dups, st =>
    if (∑ j ∈ Finset.range nbOut, (st.c j : ℤ)) < ∑ j ∈ Finset.range nbOut, targets j then
      innerWhile nbIn nbOut normalise targets rng fuel (t + 1) dups
        (passAdjust nbIn normalise targets (rng.perm t dups) st)
    else some (st, t)

/-- The outer `while len(duplicates) > 0` loop (synapses.py:193-213), with
fuel; each iteration draws a fresh start index, zeroes the regeneration
columns, runs the fill loop with inner fuel `innerFuel`, and recomputes the
regeneration set.  `s` counts `randint` calls, `t` permutation calls. -/
def outerLoop (nbIn nbOut : ℕ) (normalise : Bool) (targets : ℕ → ℤ) (m : ℚ)
    (rng : SparseRng) (innerFuel : ℕ) :
    ℕ → ℕ → ℕ → List ℕ → FillSt → Option Mat
  | 0, _, _, _, _ => none
  | fuel + 1, s, t, dups, st =>
    if dups.isEmpty then some st.w
    else
      (innerWhile nbIn nbOut normalise targets rng innerFuel t dups
        ⟨fun i j => if j ∈ dups then 0 else st.w i j, st.c, rng.start s⟩).bind
        (fun p => outerLoop nbIn nbOut normalise targets m rng innerFuel fuel (s + 1) p.2
          (dupList nbIn nbOut p.1.w m) p.1)

/-- Embedding of `sparse_synapses` (synapses.py:147-220), bias policy aside.
Defaults are resolved by truncation, `min_corr` is clipped to `[0, 1]`, the
per-output fan-in targets are `int32(rand * (max - min) + min)`, the loop
starts with every output unit in the regeneration set, and on convergence
the rows of the result are permuted by `rng.permutation(w)`. -/
def sparse_synapses (nbIn nbOut : ℕ) (nbInMin nbInMax : Option ℕ) (minCorr : ℚ)
    (normalise : Bool) (rng : SparseRng) (fuel : ℕ) : Option Mat :=
  let mn := resolvedMin nbIn nbInMin
  let mx := resolvedMax nbIn nbInMax
  let m : ℚ := min (max minCorr 0) 1
  let targets : ℕ → ℤ := fun j => int32trunc (rng.unit j * ((mx : ℚ) - (mn : ℚ)) + (mn : ℚ))
  let st0 : FillSt := ⟨fun _ _ => 0, fun _ => 0, 0⟩
  (outerLoop nbIn nbOut normalise targets m rng fuel fuel 0 0 (List.range nbOut) st0).map
    (fun w => fun i j => w (rng.rowPerm i) j)

/-- The spec-side default for `nb_in_min` as the claim words it:
`max(1, round(nb_in * 0.006))`. -/
def specDefaultMin (nbIn : ℕ) : ℤ := max 1 (round ((nbIn : ℚ) * 6 / 1000))

/-- The identity oracle: unit draws all `0`, start indices all `0`,
permutations returned unshuffled, rows unpermuted. -/
def rngId : SparseRng :=
  { unit := fun _ => 0, start := fun _ => 0, perm := fun _ l => l, rowPerm := id }

/-- The cyclic shift the specification's words describe for `roll_synapses`:
entry `(i, j)` of the result is entry `((i + v) % rows, (j + h) % cols)` of
`w` — columns shifted left by `h`, rows shifted up by `v`. -/
def rotM (w : LL ℚ) (v h : ℕ) : LL ℚ :=
  (List.range w.length).map (fun i =>
    (List.range (numCols w)).map (fun j =>
      ((w.getD ((i + v) % w.length) []).getD ((j + h) % numCols w) 0)))

/-- Embedding of `sinusoidal_synapses` (synapses.py:266): row `i`, column `j`
is `fill * (1 - cos(2π j / nb_out + 2π i / nb_in)) / 2`
(`np.linspace(0, 2π, n, endpoint=False)[k] = 2π k / n`). -/
noncomputable def sinusoidal_synapses (nbIn nbOut : ℕ) (fill : ℝ) (bias : Option BiasArg) :
    LL ℝ × Option (List ℝ) :=
  ((List.range nbIn).map (fun (i : ℕ) => (List.range nbOut).map (fun (j : ℕ) =>
      fill * (-Real.cos (2 * Real.pi * j / nbOut + 2 * Real.pi * i / nbIn) + 1) / 2)),
   bias.map (fun b => List.replicate nbOut ((b.toQ : ℚ) : ℝ)))

/-! ### The orientation-ordered DCT builder

`dct_omm_synapses` (synapses.py:357-386) consumes the orientation
collaborator only through `omm_ori.as_euler('ZYX')`, whose first two angle
arrays enter as `eulerZ` and `eulerY` below.  numpy's `argsort` (an
unspecified-tie-break sorting permutation) is embedded as `Tuple.sort`,
which likewise returns a permutation making the values monotone. -/

/-- The normalisation `phi % (2 * np.pi)` (synapses.py:376); Python float
`%` takes the sign of the divisor, i.e. `x - 2π * ⌊x / 2π⌋`. -/
noncomputable def phiNorm (x : ℝ) : ℝ := x - 2 * Real.pi * ⌊x / (2 * Real.pi)⌋

/-- The shift `(np.pi/2 + theta) % np.pi` (synapses.py:377). -/
noncomputable def thetaShift (y : ℝ) : ℝ :=
  (Real.pi / 2 + y) - Real.pi * ⌊(Real.pi / 2 + y) / Real.pi⌋

/-- The DCT-style basis of `dct_omm_synapses` before the final transpose
(synapses.py:379-384): row `r`, column `s` is
`sqrt(2/N) * c_r * cos(π * m(r) * (2 * n(s) + 1) / (2N))` where `m`/`n` are
the permutations sorting the units by normalised `φ` / shifted `θ` and
`c_r = 1/√2` exactly on the DC row (`m(r) = 0`, numpy's `isclose(m, 0)` on
integers). -/
noncomputable def dct_omm_basis (n : ℕ) (eulerZ eulerY : Fin n → ℝ) : Fin n → Fin n → ℝ :=
  let m := Tuple.sort (fun u => phiNorm (eulerZ u))
  let nn := Tuple.sort (fun u => thetaShift (eulerY u))
  fun r s =>
    Real.sqrt (2 / n) * (1 / Real.sqrt (1 + (if (m r : ℕ) = 0 then (1 : ℝ) else 0))) *
      Real.cos (Real.pi * (m r : ℕ) * (2 * (nn s : ℕ) + 1) / (2 * n))

/-- Embedding of `dct_omm_synapses` (synapses.py:357-386): the transpose
`A.T` of the sorted DCT basis. -/
noncomputable def dct_omm_synapses (n : ℕ) (eulerZ eulerY : Fin n → ℝ) : Fin n → Fin n → ℝ :=
  fun s r => dct_omm_basis n eulerZ eulerY r s

/-! ### The mental-rotation tensor builder -/

/-- Points of 3-space. -/
abbrev V3 := ℝ × ℝ × ℝ

/-- Rotation of a vector by angle `θ` about the vertical (Z) axis, the
action of scipy's `R.from_euler('Z', θ)`. -/
noncomputable def rotZ (θ : ℝ) (v : V3) : V3 :=
  (Real.cos θ * v.1 - Real.sin θ * v.2.1, Real.sin θ * v.1 + Real.cos θ * v.2.1, v.2.2)

/-- Euclidean distance of two points of 3-space. -/
noncomputable def dist3 (u v : V3) : ℝ :=
  Real.sqrt ((u.1 - v.1) ^ 2 + (u.2.1 - v.2.1) ^ 2 + (u.2.2 - v.2.2) ^ 2)

/-- Modelled from the spec: the softmax collaborator
(`invertpy.brain.activation.softmax`, not under `src/`), which "maps a
real-valued vector and a temperature parameter to a normalized non-negative
vector summing to 1" — the standard exponential softmax with temperature
`tau` over the index range `0, …, n-1`. -/
noncomputable def softmax (n : ℕ) (x : ℕ → ℝ) (tau : ℝ) (l : ℕ) : ℝ :=
  Real.exp (x l / tau) / ∑ i ∈ Finset.range n, Real.exp (x i / tau)

/-- Embedding of the tensor body of `mental_rotation_synapses`
(synapses.py:521-527).  The orientation collaborator is consumed only
through `ori.apply([1, 0, 0])`, so each unit enters as its reference
direction `dirs l`; composing with `R.from_euler('Z', -φ_k)` rotates that
direction by `-φ_k` about the vertical axis.  Entry `(j, l, k)` is
`softmax(1 - d/2, tau=sigma)[l]` for the distance row
`d(l') = |dirs j - rotZ(-φ_k) (dirs l')|`. -/
noncomputable def mental_rotation_synapses (nbOmm : ℕ) (dirs : ℕ → V3) (phiOut : ℕ → ℝ)
    (sigma : ℝ) (j l k : ℕ) : ℝ :=
  softmax nbOmm (fun l2 => 1 - dist3 (dirs j) (rotZ (-phiOut k) (dirs l2)) / 2) sigma l

/-- Embedding of `mental_rotation_synapses` with its precondition
(synapses.py:512-519): a missing `phi_out` defaults to `nb_out` uniformly
spaced angles, and the `assert len(phi_out) == nb_out` contract violation
is the `none` result. -/
noncomputable def mental_rotation_synapses_checked (nbOmm nbOut : ℕ) (dirs : ℕ → V3)
    (phiOut : Option (List ℝ)) (sigma : ℝ) : Option (ℕ → ℕ → ℕ → ℝ) :=
  let phis := phiOut.getD ((List.range nbOut).map (fun (k : ℕ) => 2 * Real.pi * k / nbOut))
  if phis.length = nbOut then
    some (mental_rotation_synapses nbOmm dirs (fun k => phis.getD k 0) sigma)
  else none

/-- Invariant of the sparse fill loop: the counter array equals the
per-column support size, counters stay below their targets on the output
range, weights are non-negative and the input index is in range. -/
def FillInv (nbIn nbOut : ℕ) (targets : ℕ → ℤ) (st : FillSt) : Prop :=
  (∀ j, st.c j = colCount nbIn st.w j) ∧
  (∀ j < nbOut, (st.c j : ℤ) ≤ targets j) ∧
  (∀ i j, 0 ≤ st.w i j) ∧
  st.i < nbIn

/-!
## Theorems

Claims C1 … C10 of the specification, in order.  Helper lemmas precede the
claim theorems they serve.
-/

unseal Rat.add Rat.mul Rat.inv Rat.sub in
/-- Claim C1, counterexample.  The claim states that the default fan-in
bounds are `max(1, round(nb_in * 0.006))` (and `0.014`).  The code
(synapses.py:180-183) truncates with `int(...)` instead of rounding: at
`nb_in = 300` the code default `nb_in_min` is `max(int(1.8), 1) = 1`,
while the claim's formula gives `max(1, round(1.8)) = 2`. -/
theorem C1_counterexample :
    (resolvedMin 300 none : ℤ) = 1 ∧ specDefaultMin 300 = 2 := by
  constructor
  · decide
  · decide

unseal Rat.add Rat.mul Rat.inv Rat.sub in
/-- Claim C2, evaluation of the code at the failing input.  With
`nb_in = 3`, `nb_out = 2`, bounds `[2, 3)`, `min_corr = 0.2`,
`normalise = true` and the identity oracle, the first fill pass produces
two overlapping columns (cosine similarity `1/2 ≥ 0.2`), both columns are
zeroed for regeneration, but the counters are never reset, so the refill
loop does nothing and `sparse_synapses` returns the all-zero matrix: both
column norms of the returned matrix are `0`, so no pair of output units has
a well-defined cosine similarity below `min_corr` (numpy evaluates it to
`NaN`), even though the recomputed regeneration set is empty. -/
theorem C2_code_evaluation :
    (sparse_synapses 3 2 (some 2) (some 3) (1/5) true rngId 8).isSome = true ∧
    colDot 3 ((sparse_synapses 3 2 (some 2) (some 3) (1/5) true rngId 8).getD
      (fun _ _ => 0)) 0 0 = 0 ∧
    colDot 3 ((sparse_synapses 3 2 (some 2) (some 3) (1/5) true rngId 8).getD
      (fun _ _ => 0)) 1 1 = 0 ∧
    dupList 3 2 ((sparse_synapses 3 2 (some 2) (some 3) (1/5) true rngId 8).getD
      (fun _ _ => 0)) (1/5) = [] := by
  refine ⟨by decide, by decide, by decide, by decide⟩

unseal Rat.add Rat.mul Rat.inv Rat.sub in
/-- Claim C3, evaluation of the code at the failing input.  Same run as for
C2 (`normalise = true`): the returned matrix's column 0 sums to `0`, not
`1`, because the column was zeroed for regeneration and never refilled. -/
theorem C3_code_evaluation :
    (sparse_synapses 3 2 (some 2) (some 3) (1/5) true rngId 8).isSome = true ∧
    colSum 3 ((sparse_synapses 3 2 (some 2) (some 3) (1/5) true rngId 8).getD
      (fun _ _ => 0)) 0 = 0 ∧
    colSum 3 ((sparse_synapses 3 2 (some 2) (some 3) (1/5) true rngId 8).getD
      (fun _ _ => 0)) 0 ≠ 1 := by
  refine ⟨by decide, by decide, by decide⟩

unseal Rat.add Rat.mul Rat.inv Rat.sub in
/-- Claim C4, counterexample.  `chessboard_synapses(4, 4)` with the default
`nb_rows = nb_cols = 2` returns a `2 × 2` matrix and (for a numeric bias) a
bias vector of length 2, not the claimed shape `(4, 4)` and length 4: the
patch is `1 × 1` because neither dimension ratio exceeds 1, and nothing
rescales the checkerboard to `(nb_in, nb_out)`. -/
theorem C4_counterexample :
    numRows (chessboard_synapses 4 4 1 2 2 (some (.num 0))).1 = 2 ∧
    numCols (chessboard_synapses 4 4 1 2 2 (some (.num 0))).1 = 2 ∧
    ((chessboard_synapses 4 4 1 2 2 (some (.num 0))).2.getD []).length = 2 ∧
    numRows (chessboard_synapses 4 4 1 2 2 (some (.num 0))).1 ≠ 4 ∧
    ((chessboard_synapses 4 4 1 2 2 (some (.num 0))).2.getD []).length ≠ 4 := by
  refine ⟨by decide, by decide, by decide, by decide, by decide⟩

unseal Rat.add Rat.mul Rat.inv Rat.sub in
/-- Claim C5, counterexample.  `uniform_synapses` takes no random source at
all, and `bias=True` lands in the `np.full(nb_out, fill_value=bias)` branch
(synapses.py:89-92), which casts `True` to the constant `1`: the result is
identical to calling it with the numeric bias `1`, so the claimed
"boolean `bias=True` returns a randomly drawn bias vector for every
builder" fails at `uniform_synapses(3, 2, fill_value=5, bias=True)`. -/
theorem C5_counterexample :
    uniform_synapses 3 2 5 (some (.bool true)) = uniform_synapses 3 2 5 (some (.num 1)) ∧
    (uniform_synapses 3 2 5 (some (.bool true))).2 = some [1, 1] := by
  refine ⟨by decide, by decide⟩

unseal Rat.add Rat.mul Rat.inv Rat.sub in
/-- Claim C8, counterexample.  `opposing_synapses` performs no evenness
check: at the odd input dimension `nb_in = 3` it silently returns the
`2 × 2` matrix `[[0,1],[1,0]]` instead of failing; likewise tiled
`diagonal_synapses(7, 3, tile=True)` silently returns a `6 × 3` matrix for
the indivisible ratio instead of failing.  No precondition-violation error
exists on either path (synapses.py:131-140, 259). -/
theorem C8_counterexample :
    (opposing_synapses 3 2 1 none).1 = [[0, 1], [1, 0]] ∧
    (diagonal_synapses 7 3 1 true none).1 =
      [[1, 0, 0], [0, 1, 0], [0, 0, 1], [1, 0, 0], [0, 1, 0], [0, 0, 1]] := by
  refine ⟨by decide, by decide⟩

unseal Rat.add Rat.mul Rat.inv Rat.sub in
/-- Claim C9, counterexample.  The claim quantifies over every integer
shift `l`; for `l = 3` on a `1 × 2`-row matrix the Python slices
`w[:, 3:]` and `w[:, :3]` saturate and return the matrix unchanged, while
a cyclic left shift of columns and up shift of rows by 3 would transpose
the entries of `[[1,2],[3,4]]` to `[[4,3],[2,1]]`. -/
theorem C9_counterexample :
    roll_synapses [[1, 2], [3, 4]] (some 3) none (some 0) none = some [[1, 2], [3, 4]] ∧
    rotM [[1, 2], [3, 4]] 3 3 = [[4, 3], [2, 1]] ∧
    roll_synapses [[1, 2], [3, 4]] (some 3) none (some 0) none ≠
      some (rotM [[1, 2], [3, 4]] 3 3) := by
  refine ⟨by decide, by decide, by decide⟩

/-- Length of a `flatMap` whose pieces all have length `k`. -/
theorem length_flatMap_const {α β : Type} (l : List α) (f : α → List β) (k : ℕ)
    (h : ∀ a ∈ l, (f a).length = k) : (l.flatMap f).length = l.length * k := by
  induction l with
  | nil => simp
  | cons a l ih =>
      simp only [List.flatMap_cons, List.length_append, List.length_cons,
        h a (by simp)]
      rw [ih (fun a ha => h a (by simp [ha]))]
      ring

/-- Shape of `fullM`. -/
theorem isRect_fullM {α : Type} (m n : ℕ) (x : α) : IsRect (fullM m n x) m n := by
  constructor
  · simp [fullM]
  · intro row hrow
    rw [List.eq_of_mem_replicate hrow]
    simp

/-- Shape of `eyeM`. -/
theorem isRect_eyeM (m n : ℕ) : IsRect (eyeM m n) m n := by
  constructor
  · simp [eyeM]
  · intro row hrow
    simp only [eyeM, List.mem_map] at hrow
    obtain ⟨i, _, rfl⟩ := hrow
    simp

/-- Scaling preserves the shape. -/
theorem isRect_scaleM {A : LL ℚ} {r c : ℕ} (a : ℚ) (h : IsRect A r c) :
    IsRect (scaleM a A) r c := by
  refine ⟨by simp [scaleM, h.1], ?_⟩
  intro row hrow
  simp only [scaleM, List.mem_map] at hrow
  obtain ⟨row₀, hm, rfl⟩ := hrow
  simp [h.2 row₀ hm]

/-- Shape of a vertical tile. -/
theorem isRect_tileV {A : LL ℚ} {r c : ℕ} (k : ℕ) (h : IsRect A r c) :
    IsRect (tileV k A) (k * r) c := by
  constructor
  · simp [tileV, List.length_flatten, Finset.sum_const, h.1, Nat.mul_comm]
  · intro row hrow
    simp only [tileV, List.mem_flatten, List.mem_replicate] at hrow
    obtain ⟨B, ⟨_, rfl⟩, hm⟩ := hrow
    exact h.2 row hm

/-- Shape of a horizontal tile. -/
theorem isRect_tileH {A : LL ℚ} {r c : ℕ} (k : ℕ) (h : IsRect A r c) :
    IsRect (tileH k A) r (k * c) := by
  constructor
  · simp [tileH, h.1]
  · intro row hrow
    simp only [tileH, List.mem_map] at hrow
    obtain ⟨row₀, hm, rfl⟩ := hrow
    simp [List.length_flatten, h.2 row₀ hm, Nat.mul_comm]

/-- Shape of the Kronecker product. -/
theorem isRect_kron {A B : LL ℚ} {r c p q : ℕ} (hA : IsRect A r c) (hB : IsRect B p q) :
    IsRect (kron A B) (r * p) (c * q) := by
  constructor
  · rw [kron, length_flatMap_const A _ p (fun ar _ => by simp [hB.1]), hA.1]
  · intro row hrow
    simp only [kron, List.mem_flatMap, List.mem_map] at hrow
    obtain ⟨ar, har, br, hbr, rfl⟩ := hrow
    rw [length_flatMap_const ar _ q (fun a _ => by simp [hB.2 br hbr]), hA.2 ar har]

/-- Shape of the checkerboard pattern. -/
theorem isRect_chessboard_pattern (m n : ℕ) : IsRect (chessboard_pattern m n) m n := by
  constructor
  · simp [chessboard_pattern]
  · intro row hrow
    simp only [chessboard_pattern, List.mem_map] at hrow
    obtain ⟨i, _, rfl⟩ := hrow
    simp

/-- For a non-empty rectangular matrix, `numCols` is the common row length. -/
theorem numCols_of_isRect {α : Type} {A : LL α} {r c : ℕ} (h : IsRect A r c) (hr : 0 < r) :
    numCols A = c := by
  cases A with
  | nil =>
      have := h.1
      simp only [List.length_nil] at this
      omega
  | cons a l => exact h.2 a (by simp)

/-- Claim C4, amended.  Shapes actually produced by the deterministic
builders: uniform, sinusoidal and untiled diagonal always return an
`(nb_in, nb_out)` matrix and a length-`nb_out` bias; tiled diagonal
returns `(nb_in, nb_out)` provided any dimension ratio exceeding 1 is an
exact multiple; opposing returns `(nb_in, nb_out)` provided both
dimensions are even; chessboard returns the shape
`(nb_rows * p, nb_cols * q)` of the Kronecker expansion with its patch
shape `(p, q)`, and its bias vector has the matrix's actual column count
`nb_cols * q`, not `nb_out`. -/
theorem C4_amended (nbIn nbOut nbRows nbCols : ℕ) (fill : ℚ) (fillR : ℝ) (b : BiasArg)
    (hIn : 0 < nbIn) (hOut : 0 < nbOut) :
    (IsRect (uniform_synapses nbIn nbOut fill (some b)).1 nbIn nbOut ∧
      ((uniform_synapses nbIn nbOut fill (some b)).2.getD []).length = nbOut) ∧
    (IsRect (diagonal_synapses nbIn nbOut fill false (some b)).1 nbIn nbOut ∧
      ((diagonal_synapses nbIn nbOut fill false (some b)).2.getD []).length = nbOut) ∧
    ((1 < nbIn / nbOut → nbOut ∣ nbIn) → (1 < nbOut / nbIn → nbIn ∣ nbOut) →
      IsRect (diagonal_synapses nbIn nbOut fill true (some b)).1 nbIn nbOut) ∧
    (2 ∣ nbIn → 2 ∣ nbOut →
      IsRect (opposing_synapses nbIn nbOut fill (some b)).1 nbIn nbOut) ∧
    ((opposing_synapses nbIn nbOut fill (some b)).2.getD []).length = nbOut ∧
    (IsRect (sinusoidal_synapses nbIn nbOut fillR (some b)).1 nbIn nbOut ∧
      ((sinusoidal_synapses nbIn nbOut fillR (some b)).2.getD []).length = nbOut) ∧
    (IsRect (chessboard_synapses nbIn nbOut fill nbRows nbCols (some b)).1
        (nbRows * (if 1 < nbOut / nbIn then 1 else if 1 < nbIn / nbOut then nbIn / nbOut else 1))
        (nbCols * (if 1 < nbOut / nbIn then nbOut / nbIn else 1)) ∧
      (0 < nbRows →
        ((chessboard_synapses nbIn nbOut fill nbRows nbCols (some b)).2.getD []).length =
          nbCols * (if 1 < nbOut / nbIn then nbOut / nbIn else 1))) := by
  refine ⟨⟨isRect_fullM _ _ _, by simp [uniform_synapses]⟩,
    ⟨?_, by simp [diagonal_synapses]⟩, ?_, ?_, by simp [opposing_synapses],
    ⟨⟨by simp [sinusoidal_synapses], ?_⟩, by simp [sinusoidal_synapses]⟩, ?_⟩
  · simpa [diagonal_synapses] using isRect_scaleM fill (isRect_eyeM nbIn nbOut)
  · intro h1 h2
    by_cases hc1 : 1 < nbIn / nbOut
    · have : nbIn / nbOut * nbOut = nbIn := Nat.div_mul_cancel (h1 hc1)
      simpa [diagonal_synapses, hc1, this] using
        isRect_scaleM fill (isRect_tileV (nbIn / nbOut) (isRect_eyeM nbOut nbOut))
    · by_cases hc2 : 1 < nbOut / nbIn
      · have : nbOut / nbIn * nbIn = nbOut := Nat.div_mul_cancel (h2 hc2)
        simpa [diagonal_synapses, hc1, hc2, this] using
          isRect_scaleM fill (isRect_tileH (nbOut / nbIn) (isRect_eyeM nbIn nbIn))
      · simpa [diagonal_synapses, hc1, hc2] using
          isRect_scaleM fill (isRect_eyeM nbIn nbOut)
  · intro hev1 hev2
    have h2 : IsRect (scaleM fill [[0, 1], [1, 0]]) 2 2 :=
      isRect_scaleM fill (by constructor <;> simp +decide [IsRect])
    have := isRect_kron h2 (isRect_eyeM (nbIn / 2) (nbOut / 2))
    rwa [Nat.mul_div_cancel' hev1, Nat.mul_div_cancel' hev2] at this
  · intro row hrow
    simp only [sinusoidal_synapses, List.mem_map] at hrow
    obtain ⟨i, _, rfl⟩ := hrow
    simp
  · have hpatch :
        IsRect (if 1 < nbOut / nbIn then fullM 1 (nbOut / nbIn) fill
          else if 1 < nbIn / nbOut then fullM (nbIn / nbOut) 1 fill else fullM 1 1 fill)
          (if 1 < nbOut / nbIn then 1 else if 1 < nbIn / nbOut then nbIn / nbOut else 1)
          (if 1 < nbOut / nbIn then nbOut / nbIn else 1) := by
      by_cases hc1 : 1 < nbOut / nbIn
      · simpa [hc1] using isRect_fullM 1 (nbOut / nbIn) fill
      · by_cases hc2 : 1 < nbIn / nbOut
        · simpa [hc1, hc2] using isRect_fullM (nbIn / nbOut) 1 fill
        · simpa [hc1, hc2] using isRect_fullM 1 1 fill
    have hw := isRect_kron (isRect_chessboard_pattern nbRows nbCols) hpatch
    refine ⟨by simpa [chessboard_synapses, pattern_synapses] using hw, ?_⟩
    intro hrpos
    have hcols : numCols (kron (chessboard_pattern nbRows nbCols)
        (if 1 < nbOut / nbIn then fullM 1 (nbOut / nbIn) fill
          else if 1 < nbIn / nbOut then fullM (nbIn / nbOut) 1 fill else fullM 1 1 fill)) =
        nbCols * (if 1 < nbOut / nbIn then nbOut / nbIn else 1) := by
      refine numCols_of_isRect hw ?_
      have hp : 0 < (if 1 < nbOut / nbIn then 1 else
          if 1 < nbIn / nbOut then nbIn / nbOut else 1) := by
        by_cases hc1 : 1 < nbOut / nbIn
        · simp [hc1]
        · by_cases hc2 : 1 < nbIn / nbOut
          · simp [hc1, hc2]
            omega
          · simp [hc1, hc2]
      exact Nat.mul_pos hrpos hp
    simp [chessboard_synapses, pattern_synapses, hcols]

/-- Claim C5, amended.  The full three-way bias policy (`None` → weights
alone, boolean `True` → rng-drawn bias, otherwise constant fill of the
value cast to a number, with `False ↦ 0`) is implemented only by
`random_synapses`; every other builder with a bias argument implements the
two-way policy `None` → no bias, any other value `v` (including `True`) →
a constant vector of `v` cast to a number, so `bias=True` there coincides
with the constant bias `1`. -/
theorem C5_amended (nbIn nbOut : ℕ) (fill wMin wMax q : ℚ) (u : ℕ → ℚ) (tile : Bool) :
    (random_synapses nbIn nbOut wMin wMax none u).2 = none ∧
    (random_synapses nbIn nbOut wMin wMax (some (.bool true)) u).2 =
      some ((List.range nbOut).map (fun j => wMin + (wMax - wMin) * u (nbIn * nbOut + j))) ∧
    (random_synapses nbIn nbOut wMin wMax (some (.num q)) u).2 =
      some (List.replicate nbOut q) ∧
    (random_synapses nbIn nbOut wMin wMax (some (.bool false)) u).2 =
      some (List.replicate nbOut 0) ∧
    (uniform_synapses nbIn nbOut fill none).2 = none ∧
    (∀ b : BiasArg, (uniform_synapses nbIn nbOut fill (some b)).2 =
      some (List.replicate nbOut b.toQ)) ∧
    (uniform_synapses nbIn nbOut fill (some (.bool true))).2 =
      (uniform_synapses nbIn nbOut fill (some (.num 1))).2 ∧
    (diagonal_synapses nbIn nbOut fill tile none).2 = none ∧
    (∀ b : BiasArg, (diagonal_synapses nbIn nbOut fill tile (some b)).2 =
      some (List.replicate nbOut b.toQ)) ∧
    (∀ b : BiasArg, (opposing_synapses nbIn nbOut fill (some b)).2 =
      some (List.replicate nbOut b.toQ)) ∧
    (∀ pattern patch : LL ℚ, ∀ b : BiasArg,
      (pattern_synapses pattern patch (some b)).2 =
        some (List.replicate (numCols (kron pattern patch)) b.toQ)) := by
  refine ⟨rfl, rfl, rfl, rfl, rfl, fun b => rfl, by simp [uniform_synapses, BiasArg.toQ],
    rfl, fun b => rfl, fun b => rfl, fun pattern patch b => rfl⟩

/-- Claim C8, amended.  Only `mental_rotation_synapses` validates its
contract: with an explicit `phi_out` it fails fast (returns no tensor)
exactly when the length differs from `nb_out`, and never fails with the
default angles.  `opposing_synapses` and tiled `diagonal_synapses` perform
no validation at all: opposing always returns a
`(2⌊nb_in/2⌋, 2⌊nb_out/2⌋)` matrix, and tiled diagonal with an indivisible
ratio `> 1` silently returns a `(⌊nb_in/nb_out⌋·nb_out, nb_out)` matrix. -/
theorem C8_amended (nbOmm nbOut : ℕ) (dirs : ℕ → V3) (sigma : ℝ) (nbIn nbOut' : ℕ)
    (fill : ℚ) :
    (∀ phis : List ℝ,
      ((mental_rotation_synapses_checked nbOmm nbOut dirs (some phis) sigma).isSome = true ↔
        phis.length = nbOut)) ∧
    (mental_rotation_synapses_checked nbOmm nbOut dirs none sigma).isSome = true ∧
    IsRect (opposing_synapses nbIn nbOut' fill none).1 (2 * (nbIn / 2)) (2 * (nbOut' / 2)) ∧
    (1 < nbIn / nbOut' →
      IsRect (diagonal_synapses nbIn nbOut' fill true none).1 ((nbIn / nbOut') * nbOut')
        nbOut') := by
  refine ⟨?_, ?_, ?_, ?_⟩
  · intro phis
    by_cases h : phis.length = nbOut
    · simp [mental_rotation_synapses_checked, h]
    · simp [mental_rotation_synapses_checked, h]
  · simp [mental_rotation_synapses_checked]
  · have h2 : IsRect (scaleM fill [[0, 1], [1, 0]]) 2 2 :=
      isRect_scaleM fill (by constructor <;> simp +decide [IsRect])
    simpa [opposing_synapses] using isRect_kron h2 (isRect_eyeM (nbIn / 2) (nbOut' / 2))
  · intro hc
    simpa [diagonal_synapses, hc] using
      isRect_scaleM fill (isRect_tileV (nbIn / nbOut') (isRect_eyeM nbOut' nbOut'))

/-- Witness for C8: at the concrete mismatched input (`phi_out` of length 1,
`nb_out = 2`) the mental-rotation builder returns no tensor, and
`opposing_synapses(3, 2)` is a `2 × 2` matrix. -/
theorem C8_witness :
    (mental_rotation_synapses_checked 1 2 (fun _ => ((1 : ℝ), 0, 0)) (some [0]) 1).isSome ≠
      true ∧
    IsRect (opposing_synapses 3 2 1 none).1 2 2 := by
  have H := C8_amended 1 2 (fun _ => ((1 : ℝ), 0, 0)) 1 3 2 1
  refine ⟨fun hs => ?_, by simpa using H.2.2.1⟩
  have := (H.1 [0]).mp hs
  simp at this

/-- Witness for C4: concrete shapes at `nb_in = 6`, `nb_out = 3`. -/
theorem C4_witness :
    IsRect (uniform_synapses 6 3 1 (some (.num 0))).1 6 3 ∧
    IsRect (diagonal_synapses 6 3 1 true (some (.num 0))).1 6 3 := by
  have H := C4_amended 6 3 2 2 1 1 (.num 0) (by decide) (by decide)
  exact ⟨H.1.1, H.2.2.1 (fun _ => by decide) (fun h => absurd h (by decide))⟩

/-- Rotated-slice lookup: the element of `xs[l:] ++ xs[:l]` at index `k` is
the element of `xs` at index `(k + l) % len`. -/
theorem rotate_getElem? {α : Type} (xs : List α) (l k : ℕ) (hl : l ≤ xs.length)
    (hk : k < xs.length) :
    (xs.drop l ++ xs.take l)[k]? = xs[(k + l) % xs.length]? := by
  have hlen : (xs.drop l).length = xs.length - l := by simp
  by_cases h : k < xs.length - l
  · have hmod : (k + l) % xs.length = k + l := Nat.mod_eq_of_lt (by omega)
    rw [List.getElem?_append, if_pos (by omega), List.getElem?_drop, hmod]
    congr 1
    omega
  · have hmod : (k + l) % xs.length = k + l - xs.length := by
      rw [Nat.mod_eq_sub_mod (by omega), Nat.mod_eq_of_lt (by omega)]
    rw [List.getElem?_append, if_neg (by omega), hlen,
      List.getElem?_take_of_lt (show k - (xs.length - l) < l by omega), hmod]
    congr 1
    omega

/-- A rotated slice written as an index map over the range of positions. -/
theorem rotate_eq_map_range {α : Type} (xs : List α) (l : ℕ) (d : α) (hl : l ≤ xs.length) :
    xs.drop l ++ xs.take l =
      (List.range xs.length).map (fun k => xs.getD ((k + l) % xs.length) d) := by
  apply List.ext_getElem?
  intro k
  by_cases hk : k < xs.length
  · have hidx : (k + l) % xs.length < xs.length := Nat.mod_lt _ (by omega)
    rw [rotate_getElem? xs l k hl hk, List.getElem?_map, List.getElem?_range hk,
      List.getElem?_eq_getElem hidx]
    simp [List.getD_eq_getElem?_getD, List.getElem?_eq_getElem hidx]
  · rw [List.getElem?_eq_none (by simp; omega), List.getElem?_eq_none (by simp; omega)]

/-- Claim C9, amended.  For shifts bounded by the matrix dimensions the
quirky coupling holds exactly: with `left = l` and any `up` value, columns
and rows both cyclically shift by `l` (any `right`/`down` arguments are
ignored), and with only `right = rr` and any `down` value, columns and rows
both cyclically shift right by `rr`. -/
theorem C9_amended (w : LL ℚ) (r c : ℕ) (hw : IsRect w r c) :
    (∀ (l u : ℕ) (ro dn : Option ℕ), l ≤ r → l ≤ c →
      roll_synapses w (some l) ro (some u) dn = some (rotM w l l)) ∧
    (∀ rr dd : ℕ,
      roll_synapses w none (some rr) none (some dd) = some (rotM w (r - rr) (c - rr))) := by
  obtain ⟨hlen, hrows⟩ := hw
  have hcols0 : ∀ i, i < w.length → (w.getD i []) ∈ w := by
    intro i hi
    rw [List.getD_eq_getElem?_getD, List.getElem?_eq_getElem hi]
    exact List.getElem_mem hi
  constructor
  · intro l u ro dn hlr hlc
    show some _ = some _
    congr 1
    have hmaplen : (w.map (fun row => row.drop l ++ row.take l)).length = w.length := by simp
    rw [show (w.map (fun row => row.drop l ++ row.take l)).drop l =
        (w.map (fun row => row.drop l ++ row.take l)).drop l from rfl]
    have houter := rotate_eq_map_range (w.map (fun row => row.drop l ++ row.take l)) l []
      (by rw [hmaplen, hlen]; exact hlr)
    rw [houter, hmaplen, rotM]
    apply List.map_congr_left
    intro i hi
    rw [List.mem_range] at hi
    have hrpos : 0 < w.length := by omega
    have hidx : (i + l) % w.length < w.length := Nat.mod_lt _ hrpos
    have hgetmap : (w.map (fun row => row.drop l ++ row.take l)).getD ((i + l) % w.length) [] =
        (w.getD ((i + l) % w.length) []).drop l ++ (w.getD ((i + l) % w.length) []).take l := by
      rw [List.getD_eq_getElem?_getD, List.getElem?_map, List.getElem?_eq_getElem hidx,
        List.getD_eq_getElem?_getD, List.getElem?_eq_getElem hidx]
      rfl
    rw [hgetmap]
    have hrowmem := hcols0 _ hidx
    have hrc' : (w.getD ((i + l) % w.length) []).length = c := hrows _ hrowmem
    have hnc : numCols w = c := numCols_of_isRect ⟨hlen, hrows⟩ (by omega)
    rw [rotate_eq_map_range (w.getD ((i + l) % w.length) []) l 0 (by rw [hrc']; exact hlc),
      hrc', hnc]
  · intro rr dd
    show some _ = some _
    congr 1
    subst hlen
    have hmaplen :
        (w.map (fun row => row.drop (row.length - rr) ++ row.take (row.length - rr))).length =
          w.length := by simp
    have houter := rotate_eq_map_range
      (w.map (fun row => row.drop (row.length - rr) ++ row.take (row.length - rr)))
      ((w.map (fun row => row.drop (row.length - rr) ++ row.take (row.length - rr))).length - rr)
      [] (by omega)
    rw [houter, hmaplen, rotM]
    apply List.map_congr_left
    intro i hi
    rw [List.mem_range] at hi
    have hrpos : 0 < w.length := by omega
    have hidx : (i + (w.length - rr)) % w.length < w.length := Nat.mod_lt _ hrpos
    have hgetmap :
        (w.map (fun row => row.drop (row.length - rr) ++ row.take (row.length - rr))).getD
          ((i + (w.length - rr)) % w.length) [] =
        (w.getD ((i + (w.length - rr)) % w.length) []).drop
            ((w.getD ((i + (w.length - rr)) % w.length) []).length - rr) ++
          (w.getD ((i + (w.length - rr)) % w.length) []).take
            ((w.getD ((i + (w.length - rr)) % w.length) []).length - rr) := by
      rw [List.getD_eq_getElem?_getD, List.getElem?_map, List.getElem?_eq_getElem hidx,
        List.getD_eq_getElem?_getD, List.getElem?_eq_getElem hidx]
      rfl
    rw [hgetmap]
    have hrc' : (w.getD ((i + (w.length - rr)) % w.length) []).length = c :=
      hrows _ (hcols0 _ hidx)
    have hnc : numCols w = c := numCols_of_isRect ⟨rfl, hrows⟩ (by omega)
    rw [hrc', rotate_eq_map_range (w.getD ((i + (w.length - rr)) % w.length) []) (c - rr) 0
        (by rw [hrc']; omega), hrc', hnc]

/-- Witness for C9: at the concrete input `[[1,2],[3,4]]` with `left = 1`,
`up = 5` (ignored magnitude) and ignored `right = 7`, `down = 9`, the roll
equals the cyclic shift of both rows and columns by 1. -/
theorem C9_witness :
    roll_synapses [[1, 2], [3, 4]] (some 1) (some 7) (some 5) (some 9) =
      some (rotM [[1, 2], [3, 4]] 1 1) :=
  (C9_amended [[1, 2], [3, 4]] 2 2 (by constructor <;> simp +decide)).1 1 5 (some 7) (some 9)
    (by decide) (by decide)

/-- Claim C6.  Mental-rotation tensor rows: entry `(j, l, k)` is the
`softmax` (temperature `sigma`) at `l` of one minus half the Euclidean
distances between unit `j`'s original direction and every unit's direction
rotated by `-φ_k` about the vertical axis; each row is non-negative and
sums to 1. -/
theorem C6_mental_rotation (nbOmm : ℕ) (h : 0 < nbOmm) (dirs : ℕ → V3) (phiOut : ℕ → ℝ)
    (sigma : ℝ) (j l k : ℕ) :
    mental_rotation_synapses nbOmm dirs phiOut sigma j l k =
      softmax nbOmm (fun l2 => 1 - dist3 (dirs j) (rotZ (-phiOut k) (dirs l2)) / 2) sigma l ∧
    0 ≤ mental_rotation_synapses nbOmm dirs phiOut sigma j l k ∧
    (∑ l2 ∈ Finset.range nbOmm,
      mental_rotation_synapses nbOmm dirs phiOut sigma j l2 k) = 1 := by
  refine ⟨rfl, ?_, ?_⟩
  · unfold mental_rotation_synapses softmax
    exact div_nonneg (Real.exp_pos _).le
      (Finset.sum_nonneg fun i _ => (Real.exp_pos _).le)
  · unfold mental_rotation_synapses softmax
    rw [← Finset.sum_div]
    apply div_self
    have hpos : 0 < ∑ i ∈ Finset.range nbOmm,
        Real.exp ((1 - dist3 (dirs j) (rotZ (-phiOut k) (dirs i)) / 2) / sigma) :=
      Finset.sum_pos (fun i _ => Real.exp_pos _)
        (by rw [Finset.nonempty_range_iff]; omega)
    exact ne_of_gt hpos

/-- Witness for C6: a concrete one-ommatidium row sums to 1. -/
theorem C6_witness :
    (∑ l2 ∈ Finset.range 1,
      mental_rotation_synapses 1 (fun _ => ((1 : ℝ), 0, 0)) (fun _ => 0) 1 0 l2 0) = 1 :=
  (C6_mental_rotation 1 (by decide) (fun _ => ((1 : ℝ), 0, 0)) (fun _ => 0) 1 0 0 0).2.2

/-- Range of the `phi % 2π` normalisation. -/
theorem phiNorm_mem (x : ℝ) : 0 ≤ phiNorm x ∧ phiNorm x < 2 * Real.pi := by
  have h2pi : 0 < 2 * Real.pi := by positivity
  have h1 := Int.sub_floor_div_mul_nonneg x h2pi
  have h2 := Int.sub_floor_div_mul_lt x h2pi
  unfold phiNorm
  constructor
  · calc (0 : ℝ) ≤ x - ⌊x / (2 * Real.pi)⌋ * (2 * Real.pi) := h1
      _ = x - 2 * Real.pi * ⌊x / (2 * Real.pi)⌋ := by ring
  · calc x - 2 * Real.pi * ⌊x / (2 * Real.pi)⌋
        = x - ⌊x / (2 * Real.pi)⌋ * (2 * Real.pi) := by ring
      _ < 2 * Real.pi := h2

/-- Range of the `(π/2 + theta) % π` shift. -/
theorem thetaShift_mem (y : ℝ) : 0 ≤ thetaShift y ∧ thetaShift y < Real.pi := by
  have hpi : 0 < Real.pi := Real.pi_pos
  have h1 := Int.sub_floor_div_mul_nonneg (Real.pi / 2 + y) hpi
  have h2 := Int.sub_floor_div_mul_lt (Real.pi / 2 + y) hpi
  unfold thetaShift
  constructor
  · calc (0 : ℝ) ≤ (Real.pi / 2 + y) - ⌊(Real.pi / 2 + y) / Real.pi⌋ * Real.pi := h1
      _ = (Real.pi / 2 + y) - Real.pi * ⌊(Real.pi / 2 + y) / Real.pi⌋ := by ring
  · calc (Real.pi / 2 + y) - Real.pi * ⌊(Real.pi / 2 + y) / Real.pi⌋
        = (Real.pi / 2 + y) - ⌊(Real.pi / 2 + y) / Real.pi⌋ * Real.pi := by ring
      _ < Real.pi := h2

/-- Claim C7.  `dct_omm_synapses` normalises the first Euler angle to
`[0, 2π)` and shifts the second to `[0, π)`, sorts the units by each
(the two permutations make the angle sequences monotone), builds the
DCT-II basis indexed by the sorting permutations (`1/√2` factor exactly on
the row whose frequency index `m r` is `0`, the DC row), and returns its
transpose. -/
theorem C7_dct_omm (n : ℕ) (eulerZ eulerY : Fin n → ℝ) :
    (∀ u, 0 ≤ phiNorm (eulerZ u) ∧ phiNorm (eulerZ u) < 2 * Real.pi) ∧
    (∀ u, 0 ≤ thetaShift (eulerY u) ∧ thetaShift (eulerY u) < Real.pi) ∧
    Monotone ((fun u => phiNorm (eulerZ u)) ∘ Tuple.sort (fun u => phiNorm (eulerZ u))) ∧
    Monotone ((fun u => thetaShift (eulerY u)) ∘ Tuple.sort (fun u => thetaShift (eulerY u))) ∧
    (∀ s r, dct_omm_synapses n eulerZ eulerY s r =
      Real.sqrt (2 / n) *
        (1 / Real.sqrt (1 +
          (if ((Tuple.sort (fun u => phiNorm (eulerZ u)) r : Fin n) : ℕ) = 0
            then (1 : ℝ) else 0))) *
        Real.cos (Real.pi * ((Tuple.sort (fun u => phiNorm (eulerZ u)) r : Fin n) : ℕ) *
          (2 * ((Tuple.sort (fun u => thetaShift (eulerY u)) s : Fin n) : ℕ) + 1) /
          (2 * n))) := by
  refine ⟨fun u => phiNorm_mem _, fun u => thetaShift_mem _,
    Tuple.monotone_sort _, Tuple.monotone_sort _, fun s r => rfl⟩

/-- Column counts only depend on the column. -/
theorem colCount_congr (nbIn : ℕ) {w w' : Mat} (j : ℕ) (h : ∀ i, w' i j = w i j) :
    colCount nbIn w' j = colCount nbIn w j := by
  unfold colCount
  congr 1
  apply Finset.filter_congr
  intro i _
  rw [h i]

/-- Writing a non-zero value into a zero cell of column `j` raises its
fan-in by one. -/
theorem colCount_upd_same (nbIn : ℕ) (w : Mat) (i0 j : ℕ) (v : ℚ) (hi : i0 < nbIn)
    (hw : w i0 j = 0) (hv : v ≠ 0) :
    colCount nbIn (upd w i0 j v) j = colCount nbIn w j + 1 := by
  have hupd : ∀ i, upd w i0 j v i j = if i = i0 then v else w i j := by
    intro i
    simp [upd]
  unfold colCount
  have hset : (Finset.range nbIn).filter (fun i => upd w i0 j v i j ≠ 0) =
      insert i0 ((Finset.range nbIn).filter (fun i => w i j ≠ 0)) := by
    ext i
    simp only [Finset.mem_filter, Finset.mem_insert, Finset.mem_range, hupd]
    constructor
    · rintro ⟨hir, hne⟩
      by_cases hii : i = i0
      · exact Or.inl hii
      · right
        refine ⟨hir, ?_⟩
        simpa [hii] using hne
    · rintro (rfl | ⟨hir, hne⟩)
      · exact ⟨hi, by simp [hv]⟩
      · have hii : i ≠ i0 := by
          rintro rfl
          exact hne hw
        exact ⟨hir, by simpa [hii] using hne⟩
  rw [hset, Finset.card_insert_of_not_mem]
  simp [hw]

/-- Updating a cell of another column leaves the fan-in unchanged. -/
theorem colCount_upd_other (nbIn : ℕ) (w : Mat) (i0 j j' : ℕ) (v : ℚ) (hj : j' ≠ j) :
    colCount nbIn (upd w i0 j v) j' = colCount nbIn w j' :=
  colCount_congr nbIn j' (fun i => by simp [upd, hj])

/-- One fill step preserves the loop invariant. -/
theorem fillInv_stepJ (nbIn nbOut : ℕ) (normalise : Bool) (targets : ℕ → ℤ) (st : FillSt)
    (j : ℕ) (hj : j < nbOut) (hInv : FillInv nbIn nbOut targets st) :
    FillInv nbIn nbOut targets (stepJ nbIn normalise targets st j) := by
  obtain ⟨h1, h2, h3, h4⟩ := hInv
  by_cases hguard : targets j ≤ (st.c j : ℤ) ∨ 0 < st.w st.i j
  · rw [stepJ, if_pos hguard]
    exact ⟨h1, h2, h3, h4⟩
  · rw [stepJ, if_neg hguard]
    push_neg at hguard
    obtain ⟨hlt, hle⟩ := hguard
    have hwz : st.w st.i j = 0 := le_antisymm hle (h3 _ _)
    have htpos : (0 : ℤ) < targets j := by
      have hc0 : (0 : ℤ) ≤ (st.c j : ℤ) := Int.natCast_nonneg _
      omega
    have hvpos : (0 : ℚ) < if normalise then 1 / ((targets j : ℚ)) else 1 := by
      cases normalise with
      | false => simp
      | true =>
          simp only [if_true]
          apply one_div_pos.mpr
          exact_mod_cast htpos
    have hnpos : 0 < nbIn := by omega
    refine ⟨?_, ?_, ?_, Nat.mod_lt _ hnpos⟩
    · intro j'
      by_cases hjj : j' = j
      · subst hjj
        simp only [Function.update_same]
        rw [colCount_upd_same nbIn st.w st.i j' _ h4 hwz (ne_of_gt hvpos), ← h1 j']
      · simp only [Function.update_noteq hjj]
        rw [colCount_upd_other nbIn st.w st.i j j' _ hjj, ← h1 j']
    · intro j' hj'
      by_cases hjj : j' = j
      · subst hjj
        simp only [Function.update_same]
        push_cast
        omega
      · simp only [Function.update_noteq hjj]
        exact h2 j' hj'
    · intro i' j'
      by_cases hc : i' = st.i ∧ j' = j
      · simpa [upd, hc] using hvpos.le
      · simpa [upd, hc] using h3 i' j'

/-- A full pass over the shuffled regeneration list preserves the invariant. -/
theorem fillInv_runPass (nbIn nbOut : ℕ) (normalise : Bool) (targets : ℕ → ℤ)
    (js : List ℕ) (st : FillSt) (hjs : ∀ j ∈ js, j < nbOut)
    (hInv : FillInv nbIn nbOut targets st) :
    FillInv nbIn nbOut targets (runPass nbIn normalise targets js st) := by
  induction js generalizing st with
  | nil => simpa [runPass] using hInv
  | cons j rest ih =>
      rw [runPass, List.foldl_cons]
      exact ih _ (fun x hx => hjs x (by simp [hx]))
        (fillInv_stepJ nbIn nbOut normalise targets st j (hjs j (by simp)) hInv)

/-- The inner fill loop preserves the invariant, and on exit the counters
have reached the summed targets. -/
theorem fillInv_innerWhile (nbIn nbOut : ℕ) (normalise : Bool) (targets : ℕ → ℤ)
    (rng : SparseRng) (hperm : ∀ t l, (rng.perm t l).Perm l) :
    ∀ (fuel t : ℕ) (dups : List ℕ) (st st2 : FillSt) (t2 : ℕ),
    (∀ j ∈ dups, j < nbOut) →
    FillInv nbIn nbOut targets st →
    innerWhile nbIn nbOut normalise targets rng fuel t dups st = some (st2, t2) →
    FillInv nbIn nbOut targets st2 ∧
      (∑ j ∈ Finset.range nbOut, targets j) ≤ ∑ j ∈ Finset.range nbOut, ((st2.c j : ℤ)) := by
  intro fuel
  induction fuel with
  | zero =>
      intro t dups st st2 t2 _ _ hrun
      simp [innerWhile] at hrun
  | succ f ih =>
      intro t dups st st2 t2 hdups hInv hrun
      rw [innerWhile] at hrun
      by_cases hsum : (∑ j ∈ Finset.range nbOut, (st.c j : ℤ)) <
          ∑ j ∈ Finset.range nbOut, targets j
      · rw [if_pos hsum] at hrun
        have hInv' : FillInv nbIn nbOut targets
            (runPass nbIn normalise targets (rng.perm t dups) st) :=
          fillInv_runPass nbIn nbOut normalise targets (rng.perm t dups) st
            (fun j hj => hdups j ((hperm t dups).mem_iff.mp hj)) hInv
        have hInv'' : FillInv nbIn nbOut targets
            (passAdjust nbIn normalise targets (rng.perm t dups) st) := by
          unfold passAdjust
          by_cases hii : (runPass nbIn normalise targets (rng.perm t dups) st).i = st.i
          · rw [if_pos hii]
            have hnpos : 0 < nbIn := by
              have := hInv'.2.2.2
              omega
            exact ⟨hInv'.1, hInv'.2.1, hInv'.2.2.1, Nat.mod_lt _ hnpos⟩
          · rw [if_neg hii]
            exact hInv'
        exact ih (t + 1) dups _ st2 t2 hdups hInv'' hrun
      · rw [if_neg hsum] at hrun
        have h1 : st = st2 ∧ t = t2 := by
          have := Option.some.inj hrun
          exact ⟨congrArg Prod.fst this, congrArg Prod.snd this⟩
        obtain ⟨rfl, rfl⟩ := h1
        exact ⟨hInv, le_of_not_lt hsum⟩

/-- Pointwise target attainment from the sum bound. -/
theorem counts_eq_of_sum (nbOut : ℕ) (targets : ℕ → ℤ) (c : ℕ → ℕ)
    (hle : ∀ j < nbOut, (c j : ℤ) ≤ targets j)
    (hsum : (∑ j ∈ Finset.range nbOut, targets j) ≤ ∑ j ∈ Finset.range nbOut, (c j : ℤ)) :
    ∀ j < nbOut, (c j : ℤ) = targets j := by
  intro j hj
  by_contra hne
  have hlt : (c j : ℤ) < targets j := lt_of_le_of_ne (hle j hj) hne
  have : (∑ j ∈ Finset.range nbOut, (c j : ℤ)) < ∑ j ∈ Finset.range nbOut, targets j :=
    Finset.sum_lt_sum (fun i hi => hle i (Finset.mem_range.mp hi))
      ⟨j, Finset.mem_range.mpr hj, hlt⟩
  omega

/-- Zeroing a set of columns zeroes their fan-in and keeps the rest. -/
theorem colCount_zeroCols (nbIn : ℕ) (w : Mat) (dups : List ℕ) (j : ℕ) :
    colCount nbIn (fun i j' => if j' ∈ dups then 0 else w i j') j =
      if j ∈ dups then 0 else colCount nbIn w j := by
  by_cases hj : j ∈ dups
  · simp only [hj, if_true]
    unfold colCount
    rw [Finset.card_eq_zero]
    apply Finset.filter_eq_empty_iff.mpr
    intro i _
    simp [hj]
  · simp only [hj, if_false]
    exact colCount_congr nbIn j (fun i => by simp [hj])

/-- Tail of the outer loop: once every counter has reached its target, any
returned matrix has columns whose fan-in equals the drawn target or was
zeroed (and, the counters never being reset, stays zero). -/
theorem outerLoop_tail (nbIn nbOut : ℕ) (normalise : Bool) (targets : ℕ → ℤ) (m : ℚ)
    (rng : SparseRng) (innerFuel : ℕ) :
    ∀ (f s t : ℕ) (dups : List ℕ) (st : FillSt) (w : Mat),
    (∑ j ∈ Finset.range nbOut, targets j) ≤ (∑ j ∈ Finset.range nbOut, (st.c j : ℤ)) →
    (∀ j < nbOut, (colCount nbIn st.w j : ℤ) = targets j ∨ colCount nbIn st.w j = 0) →
    outerLoop nbIn nbOut normalise targets m rng innerFuel f s t dups st = some w →
    ∀ j < nbOut, (colCount nbIn w j : ℤ) = targets j ∨ colCount nbIn w j = 0 := by
  intro f
  induction f with
  | zero =>
      intro s t dups st w _ _ hrun
      simp [outerLoop] at hrun
  | succ f ih =>
      intro s t dups st w hsums hgood hrun
      rw [outerLoop] at hrun
      by_cases hemp : dups.isEmpty
      · rw [if_pos hemp] at hrun
        rw [← Option.some.inj hrun]
        exact hgood
      · rw [if_neg hemp] at hrun
        rcases hinner : innerWhile nbIn nbOut normalise targets rng innerFuel t dups
            ⟨fun i j => if j ∈ dups then 0 else st.w i j, st.c, rng.start s⟩ with _ | p
        · rw [hinner, Option.none_bind] at hrun
          exact absurd hrun (by simp)
        · obtain ⟨st2, t2⟩ := p
          rw [hinner, Option.some_bind] at hrun
          have himm : st2 = (⟨fun i j => if j ∈ dups then 0 else st.w i j, st.c,
              rng.start s⟩ : FillSt) ∧ t2 = t := by
            cases innerFuel with
            | zero => simp [innerWhile] at hinner
            | succ g =>
                rw [innerWhile] at hinner
                rw [if_neg (not_lt.mpr hsums)] at hinner
                have := Option.some.inj hinner
                exact ⟨(congrArg Prod.fst this).symm, (congrArg Prod.snd this).symm⟩
          obtain ⟨rfl, rfl⟩ := himm
          dsimp only at hrun
          refine ih (s + 1) t2 _
            ⟨fun i j => if j ∈ dups then 0 else st.w i j, st.c, rng.start s⟩ w hsums ?_ hrun
          intro j hj
          rw [show ((⟨fun i j => if j ∈ dups then 0 else st.w i j, st.c,
              rng.start s⟩ : FillSt)).w = fun i j => if j ∈ dups then 0 else st.w i j from rfl]
          rw [colCount_zeroCols]
          by_cases hjd : j ∈ dups
          · simp [hjd]
          · simpa [hjd] using hgood j hj

/-- A row permutation that is a bijection of the row range preserves every
fan-in. -/
theorem colCount_rowPerm (nbIn : ℕ) (w : Mat) (ρ : ℕ → ℕ)
    (hρ : Set.BijOn ρ ↑(Finset.range nbIn) ↑(Finset.range nbIn)) (j : ℕ) :
    colCount nbIn (fun i j' => w (ρ i) j') j = colCount nbIn w j := by
  unfold colCount
  apply Finset.card_bij (fun i _ => ρ i)
  · intro a ha
    simp only [Finset.mem_filter, Finset.mem_range] at ha ⊢
    have := hρ.mapsTo (by simp [ha.1] : (a : ℕ) ∈ (↑(Finset.range nbIn) : Set ℕ))
    simp only [Finset.coe_range, Set.mem_Iio] at this
    exact ⟨this, ha.2⟩
  · intro a₁ ha₁ a₂ ha₂ hab
    simp only [Finset.mem_filter, Finset.mem_range] at ha₁ ha₂
    exact hρ.injOn (by simp [ha₁.1]) (by simp [ha₂.1]) hab
  · intro b hb
    simp only [Finset.mem_filter, Finset.mem_range] at hb
    obtain ⟨a, ha, hρa⟩ := hρ.surjOn (by simp [hb.1] : (b : ℕ) ∈ (↑(Finset.range nbIn) : Set ℕ))
    simp only [Finset.coe_range, Set.mem_Iio] at ha
    refine ⟨a, Finset.mem_filter.mpr ⟨Finset.mem_range.mpr ha, ?_⟩, hρa⟩
    show w (ρ a) j ≠ 0
    rw [hρa]
    exact hb.2

/-- Claim C1, amended.  The default bounds use integer truncation
(`max(int(nb_in*0.006), 1)`, `max(int(nb_in*0.014), 1)`), not rounding; and
provided the resolved bounds satisfy `nb_in_min < nb_in_max`, every matrix
returned by `sparse_synapses` has, in each of its `nb_out` columns, a
fan-in that either lies in `[nb_in_min, nb_in_max)` (columns filled to
their drawn target) or is `0`: a column zeroed by the regeneration step is
never refilled, because the per-column counters are not reset, so its
fan-in drops to zero and stays there. -/
theorem C1_amended (nbIn nbOut : ℕ) (nbInMin nbInMax : Option ℕ) (minCorr : ℚ)
    (normalise : Bool) (rng : SparseRng) (fuel : ℕ)
    (hstart : ∀ s, rng.start s < nbIn - 1)
    (hperm : ∀ t l, (rng.perm t l).Perm l)
    (hrow : Set.BijOn rng.rowPerm ↑(Finset.range nbIn) ↑(Finset.range nbIn))
    (hunit : ∀ j, 0 ≤ rng.unit j ∧ rng.unit j < 1)
    (hb : resolvedMin nbIn nbInMin < resolvedMax nbIn nbInMax)
    (hsome : (sparse_synapses nbIn nbOut nbInMin nbInMax minCorr normalise rng
      fuel).isSome = true) :
    ∀ j < nbOut,
      colCount nbIn
        ((sparse_synapses nbIn nbOut nbInMin nbInMax minCorr normalise rng fuel).getD
          (fun _ _ => 0)) j = 0 ∨
      (resolvedMin nbIn nbInMin ≤ colCount nbIn
          ((sparse_synapses nbIn nbOut nbInMin nbInMax minCorr normalise rng fuel).getD
            (fun _ _ => 0)) j ∧
        colCount nbIn
          ((sparse_synapses nbIn nbOut nbInMin nbInMax minCorr normalise rng fuel).getD
            (fun _ _ => 0)) j < resolvedMax nbIn nbInMax) := by
  set mn := resolvedMin nbIn nbInMin with hmndef
  set mx := resolvedMax nbIn nbInMax with hmxdef
  set T : ℕ → ℤ := fun j => int32trunc (rng.unit j * ((mx : ℚ) - (mn : ℚ)) + (mn : ℚ))
    with hT
  set M : ℚ := min (max minCorr 0) 1 with hM
  have hEq : sparse_synapses nbIn nbOut nbInMin nbInMax minCorr normalise rng fuel =
      (outerLoop nbIn nbOut normalise T M rng fuel fuel 0 0 (List.range nbOut)
        ⟨fun _ _ => 0, fun _ => 0, 0⟩).map (fun w => fun i j => w (rng.rowPerm i) j) := rfl
  have htr : ∀ j, (mn : ℤ) ≤ T j ∧ T j < (mx : ℤ) := by
    intro j
    obtain ⟨hu0, hu1⟩ := hunit j
    have hcast : (mn : ℚ) < (mx : ℚ) := by exact_mod_cast hb
    have hmle : (mn : ℚ) ≤ rng.unit j * ((mx : ℚ) - (mn : ℚ)) + (mn : ℚ) := by nlinarith
    have hmlt : rng.unit j * ((mx : ℚ) - (mn : ℚ)) + (mn : ℚ) < (mx : ℚ) := by nlinarith
    have hx0 : (0 : ℚ) ≤ rng.unit j * ((mx : ℚ) - (mn : ℚ)) + (mn : ℚ) :=
      le_trans (by positivity) hmle
    simp only [hT]
    unfold int32trunc
    rw [if_pos hx0]
    constructor
    · exact Int.le_floor.mpr (by exact_mod_cast hmle)
    · exact Int.floor_lt.mpr (by exact_mod_cast hmlt)
  have hIn2 : 2 ≤ nbIn := by
    have := hstart 0
    omega
  rw [hEq] at hsome
  rw [hEq]
  rcases houter : outerLoop nbIn nbOut normalise T M rng fuel fuel 0 0 (List.range nbOut)
      ⟨fun _ _ => 0, fun _ => 0, 0⟩ with _ | w0
  · rw [houter] at hsome
    simp at hsome
  · simp only [Option.map_some', Option.getD_some]
    rcases fuel with _ | f
    · simp [outerLoop] at houter
    · rw [outerLoop] at houter
      by_cases hemp : (List.range nbOut).isEmpty
      · rw [if_pos hemp] at houter
        have hw0 : w0 = fun _ _ => (0 : ℚ) := by
          have := Option.some.inj houter
          exact this.symm
        intro j hj
        left
        rw [colCount_rowPerm nbIn w0 rng.rowPerm hrow j, hw0]
        simp [colCount]
      · rw [if_neg hemp] at houter
        rcases hinner : innerWhile nbIn nbOut normalise T rng (f + 1) 0 (List.range nbOut)
            ⟨fun i j => if j ∈ List.range nbOut then 0
              else (⟨fun _ _ => 0, fun _ => 0, 0⟩ : FillSt).w i j,
              (⟨fun _ _ => 0, fun _ => 0, 0⟩ : FillSt).c, rng.start 0⟩ with _ | p
        · rw [hinner, Option.none_bind] at houter
          exact absurd houter (by simp)
        · obtain ⟨st2, t2⟩ := p
          rw [hinner, Option.some_bind] at houter
          dsimp only at houter
          have hInv1 : FillInv nbIn nbOut T
              ⟨fun i j => if j ∈ List.range nbOut then 0
                else (⟨fun _ _ => 0, fun _ => 0, 0⟩ : FillSt).w i j,
                (⟨fun _ _ => 0, fun _ => 0, 0⟩ : FillSt).c, rng.start 0⟩ := by
            refine ⟨?_, ?_, ?_, ?_⟩
            · intro j
              simp [colCount]
            · intro j hj
              have h1 := (htr j).1
              have h2 : (0 : ℤ) ≤ (mn : ℤ) := Int.natCast_nonneg mn
              show ((0 : ℕ) : ℤ) ≤ T j
              omega
            · intro i j
              dsimp only
              split <;> simp
            · show rng.start 0 < nbIn
              have := hstart 0
              omega
          obtain ⟨hInv2, hsum2⟩ := fillInv_innerWhile nbIn nbOut normalise T rng hperm
            (f + 1) 0 (List.range nbOut) _ st2 t2 (fun j hj => List.mem_range.mp hj)
            hInv1 hinner
          have hcnt := counts_eq_of_sum nbOut T st2.c hInv2.2.1 hsum2
          have hcol2 : ∀ j < nbOut, (colCount nbIn st2.w j : ℤ) = T j := by
            intro j hj
            rw [← hInv2.1 j]
            exact hcnt j hj
          have hfinal := outerLoop_tail nbIn nbOut normalise T M rng (f + 1) f 1 t2
            (dupList nbIn nbOut st2.w M) st2 w0 hsum2
            (fun j hj => Or.inl (hcol2 j hj)) houter
          intro j hj
          rw [colCount_rowPerm nbIn w0 rng.rowPerm hrow j]
          rcases hfinal j hj with h | h
          · right
            have h1 := (htr j).1
            have h2 := (htr j).2
            constructor
            · exact_mod_cast h ▸ h1
            · exact_mod_cast h ▸ h2
          · left
            exact h

unseal Rat.add Rat.mul Rat.inv Rat.sub in
/-- Witness for C1: the concrete run `nb_in = 3`, `nb_out = 2`, bounds
`[1, 2)`, identity oracle, converges on the first pass and column 0 of the
returned matrix has fan-in 0 or in `[1, 2)`. -/
theorem C1_witness :
    colCount 3 ((sparse_synapses 3 2 (some 1) (some 2) (1 / 5) true rngId 6).getD
      (fun _ _ => 0)) 0 = 0 ∨
    (resolvedMin 3 (some 1) ≤ colCount 3
        ((sparse_synapses 3 2 (some 1) (some 2) (1 / 5) true rngId 6).getD
          (fun _ _ => 0)) 0 ∧
      colCount 3 ((sparse_synapses 3 2 (some 1) (some 2) (1 / 5) true rngId 6).getD
        (fun _ _ => 0)) 0 < resolvedMax 3 (some 2)) :=
  C1_amended 3 2 (some 1) (some 2) (1 / 5) true rngId 6
    (fun _ => by show (0 : ℕ) < 2; decide)
    (fun _ l => List.Perm.refl l)
    (Set.bijOn_id _)
    (fun _ => ⟨by show (0 : ℚ) ≤ 0; decide, by show (0 : ℚ) < 1; decide⟩)
    (by decide)
    (by decide)
    0 (by decide)

end Invertpy
